import Mathlib

/-!
Verification development for the ros3djs ES6 migration transformer
(`src/Gruntfile.js`).  The transformer is a pipeline of regex-driven text
rewrite stages plus a stateful class assembler; text is modelled as
`List Char` and every stage is translated into a fueled character scanner
that implements the matching behaviour of the corresponding JavaScript
regex/replacement pair.  Shared mutable state (the inheritance index, the
dependency graph, diagnostics) is threaded explicitly.
-/

set_option maxRecDepth 8000
set_option maxHeartbeats 4000000

/-! ### Character classes (JavaScript regex semantics, ASCII inputs) -/

/-- JavaScript `\w`: letters, digits, underscore. -/
def isWordChar (c : Char) : Bool := c.isAlphanum || c = '_'

/-- JavaScript line terminators occurring in the sources: `\n` and `\r`. -/
def isNLChar (c : Char) : Bool := c = '\n' || c = '\r'

/-- JavaScript `\s` restricted to the whitespace actually present in the
repository sources: space, tab, newline, carriage return. -/
def isSpaceChar (c : Char) : Bool := c = ' ' || c = '\t' || c = '\n' || c = '\r'

/-- The character class `[\w.]` of the superclass-call regex. -/
def wordOrDot (c : Char) : Bool := isWordChar c || c = '.'

/-- Test whether `p` is a literal prefix of `cs`. -/
def hasPref : List Char → List Char → Bool
  | [], _ => true
  | _ :: _, [] => false
  | p :: ps, c :: cs => p = c && hasPref ps cs

/-- Drop a literal prefix, failing when it is absent. -/
def dropPref (p cs : List Char) : Option (List Char) :=
  if hasPref p cs then some (cs.drop p.length) else none

/-- Whether the pattern `p` occurs in `cs` as a contiguous substring. -/
def occursIn (p : List Char) : List Char → Bool
  | [] => hasPref p []
  | c :: cs => hasPref p (c :: cs) || occursIn p cs

/-- Whether the matcher `p` succeeds at some suffix position of `cs`
(the positions a JavaScript global regex scan attempts). -/
def anyPos (p : List Char → Bool) : List Char → Bool
  | [] => false
  | c :: cs => p (c :: cs) || anyPos p cs

/-- The part of the text from the current position to the end of its line
(what `.` based regex pieces may consume). -/
def lineOf (cs : List Char) : List Char := cs.takeWhile (fun c => !isNLChar c)

/-! ### The Symbol Table (`inheritance`) and Dependency Graph (`dependencies`)

JavaScript objects used as maps are modelled as association lists with
unique keys; `index[child]` is `idxFind`, assignment is `idxSet`.  A value
of `none` models the explicit `null` sentinel, an absent key models
`undefined`. -/
def idxFind : List (String × Option String) → String → Option (Option String)
  | [], _ => none
  | (k, v) :: t, c => if k = c then some v else idxFind t c

def idxSet : List (String × Option String) → String → Option String →
    List (String × Option String)
  | [], k, v => [(k, v)]
  | (k2, v2) :: t, k, v => if k2 = k then (k, v) :: t else (k2, v2) :: idxSet t k v

/-- Truthiness of `index[child]` in JavaScript: a present, non-null,
non-empty string parent. -/
def truthyEntry : Option (Option String) → Bool
  | some (some s) => !(s == "")
  | _ => false

/-- Truthiness of the `parent` argument of `inheritance.track`. -/
def truthyParent : Option String → Bool
  | some s => !(s == "")
  | none => false

namespace inheritance

/-- The source `isClass(prop)`: the index has an entry (even a null one). -/
def isClass (idx : List (String × Option String)) (prop : String) : Bool :=
  (idxFind idx prop).isSome

/-- The source `getParent(child)`: the raw index entry (`none` = absent,
`some none` = null sentinel, `some (some p)` = recorded parent). -/
def getParent (idx : List (String × Option String)) (child : String) :
    Option (Option String) :=
  idxFind idx child

/-- The source `track(child, parent)` translated literally:
```
if (parent && !inheritance.index[child]) { inheritance.index[child] = parent }
else { if (!inheritance.isClass(child)) { inheritance.index[child] = null } }
``` -/
def track (idx : List (String × Option String)) (child : String)
    (parent : Option String) : List (String × Option String) :=
  if truthyParent parent && !truthyEntry (idxFind idx child) then
    idxSet idx child parent
  else if !(isClass idx child) then
    idxSet idx child none
  else
    idx

end inheritance


/-- The Dependency Graph: unit name to ordered list of referenced symbols. -/
def depsFind : List (String × List String) → String → Option (List String)
  | [], _ => none
  | (k, v) :: t, c => if k = c then some v else depsFind t c

def depsSet : List (String × List String) → String → List String →
    List (String × List String)
  | [], k, v => [(k, v)]
  | (k2, v2) :: t, k, v => if k2 = k then (k, v) :: t else (k2, v2) :: depsSet t k v

namespace dependencies

/-- The source `track(file, dependency)` translated literally:
create the per-file list on first use, then push the dependency unless it
is already present (set semantics, insertion order preserved). -/
def track (deps : List (String × List String)) (file dependency : String) :
    List (String × List String) :=
  match depsFind deps file with
  | none => deps ++ [(file, [dependency])]
  | some l => if dependency ∈ l then deps else depsSet deps file (l ++ [dependency])

end dependencies


/-- Membership of a dependency edge `(file, d)` in the graph. -/
def memDep (deps : List (String × List String)) (file d : String) : Prop :=
  match depsFind deps file with
  | some l => d ∈ l
  | none => False

instance (deps : List (String × List String)) (file d : String) :
    Decidable (memDep deps file d) := by
  unfold memDep
  cases depsFind deps file with
  | none => exact inferInstanceAs (Decidable False)
  | some l => exact inferInstanceAs (Decidable (d ∈ l))

/-- The Node basename of the filepath without its `.js` extension: the
segment after the last `/`, with a
trailing `.js` extension removed when the segment is longer than the
extension itself. -/
def getFileClass (filepath : String) : String :=
  let b := (filepath.toList.reverse.takeWhile (fun c => c ≠ '/')).reverse
  if b.length > 3 ∧ b.drop (b.length - 3) = ".js".toList then
    String.mk (b.take (b.length - 3))
  else
    String.mk b

def isFileClass (filepath : String) (className : String) : Bool :=
  getFileClass filepath == className

/-! ### Diagnostics (console prints modelled as a structured side channel) -/
inductive Diag where
  | classMismatch (filepath name : String) (isClass1 isClass2 : Bool)
  | removedParentCall (matchText : String)
deriving DecidableEq, Repr

/-! ### Stage 4.2 — dependency extraction (`transpile.internalDependencies`)

Regex `/ROS3D\.(\w+)(?!.*=.*)/g`: a qualified reference whose rest-of-line
holds no `=`.  The greedy `(\w+)` needs no backtracking search here: the
negative lookahead fails for a shorter capture exactly when it fails for
the greedy one, because shrinking the capture only grows the rest of the
line. -/
def rosDotL : List Char := "ROS3D.".toList

/-- Try the stage 4.2 match at the current position; on success return the
captured name and the remaining text after the match. -/
def tryDep (cs : List Char) : Option (List Char × List Char) :=
  match dropPref rosDotL cs with
  | none => none
  | some r =>
    let name := r.takeWhile isWordChar
    if name.isEmpty then none
    else if '=' ∈ lineOf (r.dropWhile isWordChar) then none
    else some (name, r.dropWhile isWordChar)

/-- The global-regex scan of stage 4.2: rewritten text plus the captured
names in match order (each fed to `dependencies.track`). -/
def idepsGo : Nat → List Char → List Char × List (List Char)
  | 0, cs => (cs, [])
  | _ + 1, [] => ([], [])
  | fuel + 1, c :: cs =>
    match tryDep (c :: cs) with
    | some (name, rest) =>
      let r := idepsGo fuel rest
      (name ++ r.1, name :: r.2)
    | none =>
      let r := idepsGo fuel cs
      (c :: r.1, r.2)

def idepsScan (cs : List Char) : List Char × List (List Char) :=
  idepsGo (cs.length + 1) cs

/-- The shared mutable state of the transformer run. -/
structure TState where
  deps : List (String × List String)
  inh : List (String × Option String)
  diags : List Diag
deriving DecidableEq, Repr

def TState.empty : TState := ⟨[], [], []⟩

/-- Stage 4.2 as applied by the pipeline: rewrite the text and record each
captured name as a dependency of the current unit, in match order. -/
def transpile.internalDependencies (filepath : String) (st : TState)
    (cs : List Char) : TState × List Char :=
  let r := idepsScan cs
  ({ st with
      deps := r.2.foldl (fun d nm => dependencies.track d filepath (String.mk nm))
        st.deps },
    r.1)

/-! ### Generic greedy-with-backtracking capture for `(\w+)` groups

`bwGo cs cont k` models a greedy `(\w+)` capture followed by the rest of a
pattern (`cont`): capture lengths are tried from `k` down to `1`, exactly
the backtracking order of the JavaScript engine. -/
def bwGo {α : Type} (cs : List Char) (cont : List Char → Option α) :
    Nat → Option (List Char × α)
  | 0 => none
  | k + 1 =>
    match cont (cs.drop (k + 1)) with
    | some a => some (cs.take (k + 1), a)
    | none => bwGo cs cont k

/-- Rightmost decomposition `input = a ++ [x] ++ pat ++ b`: models a greedy
`(.*)` followed by a single `.` and the literal `pat` (within one line). -/
def anySplitR (pat : List Char) : List Char → Option (List Char × List Char)
  | [] => none
  | c :: cs =>
    match anySplitR pat cs with
    | some (a, b) => some (c :: a, b)
    | none => if hasPref pat cs then some ([], cs.drop pat.length) else none

/-! ### Stage 4.3 — inheritance discovery, direct link form
(`transpile.buildInheritanceIndexViaProto`)

Regex `/ROS3D.(\w+).prototype.__proto__ = (.*).prototype;[\r\n]?/g` (the
dots around the names are unescaped, i.e. any non-terminator character). -/
/-- Pattern continuation after the captured child name: any character,
`prototype`, any character, `__proto__ = `, then a greedy `(.*)`, any
character and `prototype;` with an optional trailing line terminator.
Returns the captured parent text and the rest after the match. -/
def protoCont (r : List Char) : Option (List Char × List Char) :=
  match r with
  | [] => none
  | c2 :: r2 =>
    if isNLChar c2 then none
    else match dropPref ("prototype".toList) r2 with
    | none => none
    | some r3 =>
      match r3 with
      | [] => none
      | c3 :: r4 =>
        if isNLChar c3 then none
        else match dropPref ("__proto__ = ".toList) r4 with
          | none => none
          | some r5 =>
            let L := lineOf r5
            match anySplitR ("prototype;".toList) L with
            | none => none
            | some (a, b) =>
              let restAll := b ++ r5.drop L.length
              let rest := match restAll with
                | [] => ([] : List Char)
                | c :: t => if isNLChar c then t else restAll
              some (a, rest)

/-- Try the stage 4.3 match at the current position: `(child, parent, rest)`. -/
def tryProto (cs : List Char) : Option (List Char × List Char × List Char) :=
  match dropPref ("ROS3D".toList) cs with
  | none => none
  | some r0 =>
    match r0 with
    | [] => none
    | c1 :: r1 =>
      if isNLChar c1 then none
      else
        match bwGo r1 protoCont (r1.takeWhile isWordChar).length with
        | none => none
        | some (child, par, rest) => some (child, par, rest)

/-- The stage 4.3 scan: deleted matches, plus the `(child, parent)` pairs
fed to `inheritance.track`, in match order. -/
def protoGo : Nat → List Char → List Char × List (List Char × List Char)
  | 0, cs => (cs, [])
  | _ + 1, [] => ([], [])
  | fuel + 1, c :: cs =>
    match tryProto (c :: cs) with
    | some (child, par, rest) =>
      let r := protoGo fuel rest
      (r.1, (child, par) :: r.2)
    | none =>
      let r := protoGo fuel cs
      (c :: r.1, r.2)

/-! ### Stage 4.4 — inheritance discovery, capability-merge form
(`transpile.buildInheritanceIndexViaObjectAssign`)

Regex `/Object.assign\((\w+).prototype, (.*).prototype\);/g`. -/
def assignCont (r : List Char) : Option (List Char × List Char) :=
  match r with
  | [] => none
  | c2 :: r2 =>
    if isNLChar c2 then none
    else match dropPref ("prototype, ".toList) r2 with
    | none => none
    | some r3 =>
      let L := lineOf r3
      match anySplitR ("prototype);".toList) L with
      | none => none
      | some (a, b) => some (a, b ++ r3.drop L.length)

def tryAssign (cs : List Char) : Option (List Char × List Char × List Char) :=
  match dropPref ("Object".toList) cs with
  | none => none
  | some r0 =>
    match r0 with
    | [] => none
    | c1 :: r1 =>
      if isNLChar c1 then none
      else match dropPref ("assign(".toList) r1 with
      | none => none
      | some r2 =>
        match bwGo r2 assignCont (r2.takeWhile isWordChar).length with
        | none => none
        | some (child, par, rest) => some (child, par, rest)

def assignGo : Nat → List Char → List Char × List (List Char × List Char)
  | 0, cs => (cs, [])
  | _ + 1, [] => ([], [])
  | fuel + 1, c :: cs =>
    match tryAssign (c :: cs) with
    | some (child, par, rest) =>
      let r := assignGo fuel rest
      (r.1, (child, par) :: r.2)
    | none =>
      let r := assignGo fuel cs
      (c :: r.1, r.2)

/-! ### Stage 4.5 — method tagging (`transpile.methods`)

Regex `/ROS3D.(\w+).prototype.(\w+) = function/g`, with the explicit
`__proto__` bail-out returning the match unchanged. -/
structure MethodM where
  owner : List Char
  mname : List Char
  matched : List Char
  rest : List Char

/-- Continuation after the owner capture: any character, `prototype`, any
character, the method-name capture, then literally ` = function`.  The
method-name `(\w+)` needs no backtracking: a shorter capture leaves a word
character where the literal space is required. -/
def methodCont (r : List Char) : Option (List Char × List Char × List Char) :=
  match r with
  | [] => none
  | c2 :: r2 =>
    if isNLChar c2 then none
    else match dropPref ("prototype".toList) r2 with
    | none => none
    | some r3 =>
      match r3 with
      | [] => none
      | c3 :: r4 =>
        if isNLChar c3 then none
        else
          let m := r4.takeWhile isWordChar
          if m.isEmpty then none
          else match dropPref (" = function".toList) (r4.dropWhile isWordChar) with
            | none => none
            | some r5 =>
              some (m, c2 :: ("prototype".toList ++ c3 :: m ++ " = function".toList), r5)

def tryMethod (cs : List Char) : Option MethodM :=
  match dropPref ("ROS3D".toList) cs with
  | none => none
  | some r0 =>
    match r0 with
    | [] => none
    | c1 :: r1 =>
      if isNLChar c1 then none
      else
        match bwGo r1 methodCont (r1.takeWhile isWordChar).length with
        | none => none
        | some (owner, mname, consumed, rest) =>
          some ⟨owner, mname, "ROS3D".toList ++ c1 :: owner ++ consumed, rest⟩

/-- The stage 4.5 scan: rewritten text plus the owner names fed to
`inheritance.track` with a `null` parent, in match order. -/
def methodGo : Nat → List Char → List Char × List (List Char)
  | 0, cs => (cs, [])
  | _ + 1, [] => ([], [])
  | fuel + 1, c :: cs =>
    match tryMethod (c :: cs) with
    | some m =>
      if m.mname = "__proto__".toList then
        let r := methodGo fuel m.rest
        (m.matched ++ r.1, r.2)
      else
        let r := methodGo fuel m.rest
        (m.mname ++ r.1, m.owner :: r.2)
    | none =>
      let r := methodGo fuel cs
      (c :: r.1, r.2)

/-! ### Stage 4.6 — constructor tagging (`transpile.constructors`)

Regex `/ROS3D.(\w+)\s*=\s*function/g`.  The greedy captures need no
backtracking search: word characters, whitespace, `=` and `f` are mutually
exclusive, so the match is all-or-nothing. -/
structure ConsM where
  name : List Char
  matched : List Char
  rest : List Char

def tryCons (cs : List Char) : Option ConsM :=
  match dropPref ("ROS3D".toList) cs with
  | none => none
  | some r0 =>
    match r0 with
    | [] => none
    | c1 :: r1 =>
      if isNLChar c1 then none
      else
        let name := r1.takeWhile isWordChar
        if name.isEmpty then none
        else
          let r2 := r1.dropWhile isWordChar
          let ws1 := r2.takeWhile isSpaceChar
          match r2.dropWhile isSpaceChar with
          | [] => none
          | c2 :: r3 =>
            if c2 = '=' then
              let ws2 := r3.takeWhile isSpaceChar
              match dropPref ("function".toList) (r3.dropWhile isSpaceChar) with
              | none => none
              | some r4 =>
                some ⟨name,
                  "ROS3D".toList ++ c1 :: (name ++ ws1 ++ c2 :: (ws2 ++ "function".toList)),
                  r4⟩
            else none

/-- The stage 4.6 scan; emits the `class mismatch` diagnostic on signal
disagreement and rewrites the head to `constructor` only when the Symbol
Table marks the name as a class. -/
def consGo (filepath : String) (inh : List (String × Option String)) :
    Nat → List Char → List Char × List Diag
  | 0, cs => (cs, [])
  | _ + 1, [] => ([], [])
  | fuel + 1, c :: cs =>
    match tryCons (c :: cs) with
    | some m =>
      let isClass1 := inheritance.isClass inh (String.mk m.name)
      let isClass2 := isFileClass filepath (String.mk m.name)
      let d : List Diag :=
        if isClass1 = isClass2 then []
        else [Diag.classMismatch filepath (String.mk m.name) isClass1 isClass2]
      let r := consGo filepath inh fuel m.rest
      ((if isClass1 then "constructor".toList else m.matched) ++ r.1, d ++ r.2)
    | none =>
      let r := consGo filepath inh fuel cs
      (c :: r.1, r.2)

/-! ### Stage 4.7 — superclass-call rewriting (`transpile.parentConstructors`)

Regex `/[\r\n]([\s]*)([\w.]+)\.call\((?:this|that)(.*)/g`.  Because `(` is
not in `[\w.]`, the literal `.call(` can only sit at the end of the maximal
`[\w.]` run: the greedy backtracking search has exactly one candidate, the
run with its trailing `.call` removed. -/
structure CallM where
  ws : List Char
  ref : List Char
  args : List Char
  matched : List Char
  rest : List Char

def tryCall : List Char → Option CallM
  | [] => none
  | c0 :: cs =>
    if isNLChar c0 then
      let ws := cs.takeWhile isSpaceChar
      let r1 := cs.dropWhile isSpaceChar
      let run := r1.takeWhile wordOrDot
      let r2 := r1.dropWhile wordOrDot
      if run.length < 6 then none
      else if run.drop (run.length - 5) ≠ ".call".toList then none
      else
        let ref := run.take (run.length - 5)
        match dropPref ("(this".toList) r2 with
        | some r3 =>
          let a2 := lineOf r3
          some ⟨ws, ref, a2, c0 :: (ws ++ run ++ "(this".toList ++ a2), r3.drop a2.length⟩
        | none =>
          match dropPref ("(that".toList) r2 with
          | some r3 =>
            let a2 := lineOf r3
            some ⟨ws, ref, a2, c0 :: (ws ++ run ++ "(that".toList ++ a2), r3.drop a2.length⟩
          | none => none
    else none

/-- The split `$2.split` on every comma or closing parenthesis. -/
def splitCP : List Char → List (List Char)
  | [] => [[]]
  | c :: cs =>
    if c = ',' ∨ c = ')' then [] :: splitCP cs
    else
      match splitCP cs with
      | p :: ps => (c :: p) :: ps
      | [] => [[c]]

def trimL (cs : List Char) : List Char := cs.dropWhile isSpaceChar

/-- JavaScript `String.prototype.trim` on the whitespace in scope here. -/
def jsTrim (cs : List Char) : List Char :=
  ((trimL cs).reverse.dropWhile isSpaceChar).reverse

/-- The JavaScript array join with a separator. -/
def joinSep (sep : List Char) : List (List Char) → List Char
  | [] => []
  | [a] => a
  | a :: b :: rest => a ++ sep ++ joinSep sep (b :: rest)

/-- The argument extraction of the superclass-call replacement:
`split(/,|\)/).slice(1,-1).join(',').trim()`. -/
def cookArgs (a2 : List Char) : List Char :=
  jsTrim (joinSep [','] (((splitCP a2).drop 1).dropLast))

/-- The stage 4.7 scan.  `child` is the unit's logical class name and the
rewrite compares the qualified reference with its recorded parent using
JavaScript strict equality (false for an absent or null parent). -/
def pcGo (child : String) (inh : List (String × Option String)) :
    Nat → List Char → List Char × List Diag
  | 0, cs => (cs, [])
  | _ + 1, [] => ([], [])
  | fuel + 1, c :: cs =>
    match tryCall (c :: cs) with
    | some m =>
      if inheritance.getParent inh child = some (some (String.mk m.ref)) then
        let r := pcGo child inh fuel m.rest
        ('\n' :: (m.ws ++ "super(".toList ++ cookArgs m.args ++ ");".toList) ++ r.1,
          r.2)
      else
        let r := pcGo child inh fuel m.rest
        (r.1, Diag.removedParentCall (String.mk m.matched) :: r.2)
    | none =>
      let r := pcGo child inh fuel cs
      (c :: r.1, r.2)

/-- Modelled from the spec (C10 reference behaviour): delete **every**
line-initial `<ref>.call(this|that, ...)` statement, emitting one
`removing extra parent constructor call` notice per deletion. -/
def deleteAllGo : Nat → List Char → List Char × List Diag
  | 0, cs => (cs, [])
  | _ + 1, [] => ([], [])
  | fuel + 1, c :: cs =>
    match tryCall (c :: cs) with
    | some m =>
      let r := deleteAllGo fuel m.rest
      (r.1, Diag.removedParentCall (String.mk m.matched) :: r.2)
    | none =>
      let r := deleteAllGo fuel cs
      (c :: r.1, r.2)

/-! ### Stage 4.8 — the Class Assembler (`transpile.classes`)

Regex `/((?:\/\*\*(?:(?:\*[^/]|[^*])+?)\*\/)(?:[\s\r\n])*constructor\(.*)|$(?:[\r\n]$)*((?![\r\n]))|.*/gm`
with a per-file two-boolean state.  The scanner below follows the attempt
positions of the JavaScript global scan: line starts, line ends (where the
third alternative matches empty and the engine bumps one character), and
the end-of-input region (the only place the second alternative can match,
since its trailing lookahead forces the match to end at EOF). -/
/-- One lazy comment-body token: `\*[^/]` or `[^*]`. -/
def comTokenC : List Char → Option (List Char × List Char)
  | [] => none
  | c :: r =>
    if c = '*' then
      match r with
      | [] => none
      | c2 :: r2 => if c2 = '/' then none else some ([c, c2], r2)
    else some ([c], r)

/-- Lazily extend the comment body until `*/` closes it (the token grammar
cannot step across a `*/`, so the body runs to the first closing that the
tokenizer can reach). -/
def comCloseC : Nat → List Char → Option (List Char × List Char)
  | 0, _ => none
  | fuel + 1, cs =>
    if hasPref ("*/".toList) cs then some ("*/".toList, cs.drop 2)
    else
      match comTokenC cs with
      | none => none
      | some (t, r) =>
        match comCloseC fuel r with
        | none => none
        | some (a, b) => some (t ++ a, b)

/-- The first alternative of the assembler regex: a `/**` documentation
comment, optional whitespace, then `constructor(` and the rest of that
line.  Returns the matched text and the remainder. -/
def tryComCtor (cs : List Char) : Option (List Char × List Char) :=
  match dropPref ("/**".toList) cs with
  | none => none
  | some r0 =>
    match comTokenC r0 with
    | none => none
    | some (t0, r1) =>
      match comCloseC r1.length r1 with
      | none => none
      | some (body, r2) =>
        let ws := r2.takeWhile isSpaceChar
        match dropPref ("constructor(".toList) (r2.dropWhile isSpaceChar) with
        | none => none
        | some r3 =>
          let tail := lineOf r3
          some ("/**".toList ++ t0 ++ body ++ ws ++ "constructor(".toList ++ tail,
            r3.drop tail.length)

def allNL : List Char → Bool
  | [] => true
  | c :: cs => isNLChar c && allNL cs

def indentL : List Char := [' ', ' ']

/-- The reindentation `match.replace` of the assembler: each line
terminator becomes a newline plus one indent level. -/
def indentNL : List Char → List Char
  | [] => []
  | c :: cs => (if isNLChar c then '\n' :: indentL else [c]) ++ indentNL cs

def indentML (m : List Char) : List Char := indentL ++ indentNL m

/-- The emitted class header; the inheritance clause appears only for a
truthy recorded parent. -/
def classHeader (className : String) (par : Option (Option String)) : List Char :=
  match par with
  | some (some p) =>
    if p == "" then ("export class " ++ className ++ " \x7b\n\n").toList
    else ("export class " ++ className ++ " extends " ++ p ++ " \x7b\n\n").toList
  | _ => ("export class " ++ className ++ " \x7b\n\n").toList

structure CState where
  isInClass : Bool
  matchedFirstComment : Bool
deriving DecidableEq, Repr

/-- The assembler scan. -/
def classesGo (className : String) (par : Option (Option String)) :
    Nat → CState → List Char → List Char
  | 0, _, cs => cs
  | fuel + 1, st, cs =>
    match tryComCtor cs with
    | some (m, rest) =>
      if !st.matchedFirstComment then
        classHeader className par ++ indentML m ++
          classesGo className par fuel ⟨true, true⟩ rest
      else if st.isInClass then
        indentL ++ m ++ classesGo className par fuel st rest
      else
        m ++ classesGo className par fuel st rest
    | none =>
      if allNL cs then
        if st.isInClass then "\n\x7d\n".toList else cs
      else
        let m := cs.takeWhile (fun c => !isNLChar c)
        if m.isEmpty then
          match cs with
          | [] => []
          | c :: t =>
            (if st.isInClass then indentL else []) ++
              c :: classesGo className par fuel st t
        else
          (if st.isInClass then indentL ++ m else m) ++
            classesGo className par fuel st (cs.dropWhile (fun c => !isNLChar c))

/-- The number of times the assembler scan opens a class block (fires its
header-emitting branch); mirrors the recursion of `classesGo`. -/
def classesOpenCount : Nat → CState → List Char → Nat
  | 0, _, _ => 0
  | fuel + 1, st, cs =>
    match tryComCtor cs with
    | some (_, rest) =>
      if !st.matchedFirstComment then 1 + classesOpenCount fuel ⟨true, true⟩ rest
      else classesOpenCount fuel st rest
    | none =>
      if allNL cs then 0
      else
        let m := cs.takeWhile (fun c => !isNLChar c)
        if m.isEmpty then
          match cs with
          | [] => 0
          | _ :: t => classesOpenCount fuel st t
        else classesOpenCount fuel st (cs.dropWhile (fun c => !isNLChar c))

/-! ### Stage 4.1 and the pipeline driver (`transpileToEs6`) -/
/-- First-occurrence literal replacement (the stage 4.1 regex has no `g`
flag and holds only escaped literal characters). -/
def replaceOnce (pat repl : List Char) : List Char → List Char
  | [] => []
  | c :: cs =>
    if hasPref pat (c :: cs) then repl ++ (c :: cs).drop pat.length
    else c :: replaceOnce pat repl cs

def rootPatL : List Char :=
  "var ROS3D = ROS3D || \x7b\n  REVISION : \x270.18.0\x27\n\x7d;".toList

def rootReplL : List Char := "export const REVISION = \x270.18.0\x27;".toList

def transpile.buildInheritanceIndexViaProto (st : TState) (cs : List Char) :
    TState × List Char :=
  let r := protoGo (cs.length + 1) cs
  ({ st with
      inh := r.2.foldl
        (fun i p => inheritance.track i (String.mk p.1) (some (String.mk p.2)))
        st.inh },
    r.1)

def transpile.buildInheritanceIndexViaObjectAssign (st : TState) (cs : List Char) :
    TState × List Char :=
  let r := assignGo (cs.length + 1) cs
  ({ st with
      inh := r.2.foldl
        (fun i p => inheritance.track i (String.mk p.1) (some (String.mk p.2)))
        st.inh },
    r.1)

def transpile.methods (st : TState) (cs : List Char) : TState × List Char :=
  let r := methodGo (cs.length + 1) cs
  ({ st with
      inh := r.2.foldl (fun i nm => inheritance.track i (String.mk nm) none) st.inh },
    r.1)

def transpile.constructors (filepath : String) (st : TState) (cs : List Char) :
    TState × List Char :=
  let r := consGo filepath st.inh (cs.length + 1) cs
  ({ st with diags := st.diags ++ r.2 }, r.1)

def transpile.parentConstructors (filepath : String) (st : TState) (cs : List Char) :
    TState × List Char :=
  let r := pcGo (getFileClass filepath) st.inh (cs.length + 1) cs
  ({ st with diags := st.diags ++ r.2 }, r.1)

def transpile.classes (filepath : String) (st : TState) (cs : List Char) : List Char :=
  classesGo (getFileClass filepath)
    (inheritance.getParent st.inh (getFileClass filepath))
    (cs.length + 1) ⟨false, false⟩ cs

/-- The full pipeline of `transpileToEs6`: the root-unit stage 4.1 when the
unit is `src/Ros3D.js`, then stages 4.2–4.7 and the Class Assembler, each
consuming the previous stage's text and sharing the run state. -/
def transpileToEs6 (filepath : String) (st : TState) (content : List Char) :
    TState × List Char :=
  let t0 := if filepath = "src/Ros3D.js"
    then replaceOnce rootPatL rootReplL content else content
  let r1 := transpile.internalDependencies filepath st t0
  let r2 := transpile.buildInheritanceIndexViaProto r1.1 r1.2
  let r3 := transpile.buildInheritanceIndexViaObjectAssign r2.1 r2.2
  let r4 := transpile.methods r3.1 r3.2
  let r5 := transpile.constructors filepath r4.1 r4.2
  let r6 := transpile.parentConstructors filepath r5.1 r5.2
  (r6.1, transpile.classes filepath r6.1 r6.2)

/-! ### Scenario theorems on concrete units -/
/-- Scenario A input: a documentation comment and constructor assignment
for `Arrow2`, its template-link statement naming `Base`, and one method
statement. -/
def scenarioAInput : String :=
  "/**\n * Arrow.\n */\nROS3D.Arrow2 = function(options) \x7b\n  this.origin = options;\n\x7d;\nROS3D.Arrow2.prototype.__proto__ = Base.prototype;\n\nROS3D.Arrow2.prototype.dispose = function() \x7b\n  this.origin = null;\n\x7d;\n"

/-- The pipeline's exact output on `scenarioAInput` (header, indented
constructor and method bodies; in-class lines carry the two trailing
spaces inserted by the assembler's empty matches at line ends). -/
def scenarioAOutput : String :=
  "export class Arrow2 extends Base \x7b\n\n  /**\n   * Arrow.\n   */\n  constructor(options) \x7b  \n    this.origin = options;  \n  \x7d;  \n  \n  dispose() \x7b  \n    this.origin = null;  \n  \x7d;\n\x7d\n"

/-- Scenario B input: a single namespace-level factory assignment. -/
def scenarioBInput : String := "ROS3D.util = function(x) \x7b return x; \x7d;"

/-! ### C2 — superclass-call rewriting: argument bookkeeping -/
/-- Characters of a "simple" call argument: not a separator the split can
cut on (`,` or `)`) and not whitespace. -/
def argChar (c : Char) : Bool := !(c = ',' || c = ')' || isSpaceChar c)

/-- The `$2` text of a superclass call with simple arguments:
`", a1, ..., an);"` (or just `");"` for no arguments). -/
def argsTailText (args : List (List Char)) : List Char :=
  (match args with
   | [] => []
   | _ :: _ => ", ".toList ++ joinSep (", ".toList) args) ++ ");".toList

/-! ### Theorems -/

/-! ### Basic lemmas about the helpers -/
theorem hasPref_iff_append (p : List Char) :
    ∀ cs, hasPref p cs = true ↔ ∃ r, cs = p ++ r := by
  induction p with
  | nil =>
      intro cs
      simp [hasPref]
  | cons a ps ih =>
      intro cs
      cases cs with
      | nil => simp [hasPref]
      | cons c cs =>
          simp only [hasPref, Bool.and_eq_true, decide_eq_true_eq, ih cs]
          constructor
          · rintro ⟨rfl, r, rfl⟩
            exact ⟨r, rfl⟩
          · rintro ⟨r, h⟩
            rw [List.cons_append] at h
            cases h
            exact ⟨rfl, r, rfl⟩

theorem dropPref_eq_some (p cs r : List Char) (h : dropPref p cs = some r) :
    cs = p ++ r := by
  unfold dropPref at h
  by_cases hp : hasPref p cs = true
  · rw [if_pos hp] at h
    rcases (hasPref_iff_append p cs).mp hp with ⟨r2, rfl⟩
    simp at h
    rw [← h]
  · rw [if_neg hp] at h
    cases h

theorem anyPos_tail (p : List Char → Bool) (c : Char) (cs : List Char)
    (h : anyPos p (c :: cs) = false) : anyPos p cs = false := by
  unfold anyPos at h
  exact (Bool.or_eq_false_iff.mp h).2

theorem anyPos_head (p : List Char → Bool) (c : Char) (cs : List Char)
    (h : anyPos p (c :: cs) = false) : p (c :: cs) = false := by
  unfold anyPos at h
  exact (Bool.or_eq_false_iff.mp h).1

theorem anyPos_drop (p : List Char → Bool) :
    ∀ (k : Nat) (cs : List Char), anyPos p cs = false → anyPos p (cs.drop k) = false := by
  intro k
  induction k with
  | zero => intro cs h; simpa using h
  | succ n ih =>
      intro cs h
      cases cs with
      | nil => simpa using h
      | cons c cs => exact ih cs (anyPos_tail p c cs h)

theorem anyPos_suffix (p : List Char → Bool) :
    ∀ (l cs : List Char), anyPos p (l ++ cs) = false → anyPos p cs = false := by
  intro l
  induction l with
  | nil => intro cs h; simpa using h
  | cons c l ih =>
      intro cs h
      exact ih cs (anyPos_tail p c (l ++ cs) h)

theorem occursIn_tail (p : List Char) (c : Char) (cs : List Char)
    (h : occursIn p (c :: cs) = false) : occursIn p cs = false := by
  unfold occursIn at h
  exact (Bool.or_eq_false_iff.mp h).2

theorem occursIn_head (p : List Char) (c : Char) (cs : List Char)
    (h : occursIn p (c :: cs) = false) : hasPref p (c :: cs) = false := by
  unfold occursIn at h
  exact (Bool.or_eq_false_iff.mp h).1

theorem idxFind_idxSet (idx : List (String × Option String)) (k : String)
    (v : Option String) : idxFind (idxSet idx k v) k = some v := by
  induction idx with
  | nil => simp [idxSet, idxFind]
  | cons e t ih =>
      obtain ⟨k2, v2⟩ := e
      by_cases h : k2 = k
      · simp [idxSet, h, idxFind]
      · simp [idxSet, h, idxFind, ih]

/-! ### C1 and C9: first-registration-wins behaviour of `inheritance.track` -/
/-- C1. Once a symbol's entry in the Symbol Table is a concrete
(non-null, non-empty) parent name, any later `inheritance.track` call for
that symbol — with any second parent name — leaves the recorded parent
unchanged (first-registration-wins). -/
theorem c1_first_registration_wins (idx : List (String × Option String))
    (child p : String) (p2 : Option String)
    (hfound : idxFind idx child = some (some p)) (hne : p ≠ "") :
    idxFind (inheritance.track idx child p2) child = some (some p) := by
  unfold inheritance.track
  rw [hfound]
  have h1 : truthyEntry (some (some p)) = true := by
    simp [truthyEntry, hne]
  rw [h1]
  have h2 : inheritance.isClass idx child = true := by
    unfold inheritance.isClass
    rw [hfound]
    rfl
  simp [h2, hfound]

theorem c1_first_registration_wins_witness :
    idxFind [("Arrow2", some "Base")] "Arrow2" = some (some "Base") ∧
      idxFind (inheritance.track [("Arrow2", some "Base")] "Arrow2" (some "Other"))
        "Arrow2" = some (some "Base") :=
  ⟨by decide,
    c1_first_registration_wins [("Arrow2", some "Base")] "Arrow2" "Base"
      (some "Other") (by decide) (by decide)⟩

/-- C9. A symbol whose Symbol Table entry is the no-parent sentinel
(`null`, e.g. set by method tagging) is not blocked: a subsequent
`inheritance.track` call with a concrete (non-empty) parent name replaces
the sentinel with that parent. -/
theorem c9_sentinel_replaced (idx : List (String × Option String))
    (child p2 : String) (hfound : idxFind idx child = some none)
    (hne : p2 ≠ "") :
    idxFind (inheritance.track idx child (some p2)) child = some (some p2) := by
  unfold inheritance.track
  rw [hfound]
  have h1 : truthyParent (some p2) = true := by
    simp [truthyParent, hne]
  have h2 : truthyEntry (some (none : Option String)) = false := rfl
  rw [h1, h2]
  simp [idxFind_idxSet]

theorem c9_sentinel_replaced_witness :
    idxFind [("Marker", none)] "Marker" = some none ∧
      idxFind (inheritance.track [("Marker", none)] "Marker" (some "Base"))
        "Marker" = some (some "Base") :=
  ⟨by decide,
    c9_sentinel_replaced [("Marker", none)] "Marker" "Base" (by decide) (by decide)⟩

/-- Every name captured by the stage 4.2 scan comes from an occurrence
`ROS3D.<name>` whose rest-of-line holds no `=`. -/
theorem idepsGo_sound :
    ∀ (fuel : Nat) (cs nm : List Char), nm ∈ (idepsGo fuel cs).2 →
      ∃ l1 l2, cs = l1 ++ rosDotL ++ nm ++ l2 ∧ nm ≠ [] ∧
        (∀ c ∈ nm, isWordChar c = true) ∧ '=' ∉ lineOf l2 := by
  intro fuel
  induction fuel with
  | zero => intro cs nm h; simp [idepsGo] at h
  | succ n ih =>
      intro cs nm h
      cases cs with
      | nil => simp [idepsGo] at h
      | cons c cs =>
          rw [idepsGo] at h
          rcases htry : tryDep (c :: cs) with _ | ⟨name, rest⟩
          · rw [htry] at h
            simp only at h
            rcases ih cs nm h with ⟨l1, l2, heq, hne, hw, hnq⟩
            exact ⟨c :: l1, l2, by rw [heq]; rfl, hne, hw, hnq⟩
          · rw [htry] at h
            simp only [List.mem_cons] at h
            have hstruct : (c :: cs) = rosDotL ++ name ++ rest ∧ name ≠ [] ∧
                (∀ ch ∈ name, isWordChar ch = true) ∧ '=' ∉ lineOf rest := by
              unfold tryDep at htry
              rcases hdp : dropPref rosDotL (c :: cs) with _ | r
              · rw [hdp] at htry; cases htry
              · rw [hdp] at htry
                simp only at htry
                by_cases hemp : (r.takeWhile isWordChar).isEmpty
                · rw [if_pos hemp] at htry; cases htry
                · rw [if_neg hemp] at htry
                  by_cases hq : '=' ∈ lineOf (r.dropWhile isWordChar)
                  · rw [if_pos hq] at htry; cases htry
                  · rw [if_neg hq] at htry
                    have h1 := dropPref_eq_some rosDotL (c :: cs) r hdp
                    cases htry
                    refine ⟨?_, ?_, ?_, hq⟩
                    · rw [h1, List.append_assoc]
                      congr 1
                      exact (List.takeWhile_append_dropWhile isWordChar r).symm
                    · intro hcon
                      rw [hcon] at hemp
                      exact hemp rfl
                    · intro ch hch
                      exact List.mem_takeWhile_imp hch
            rcases h with h | h
            · rcases hstruct with ⟨heq, hne, hw, hq⟩
              exact ⟨[], rest, by rw [heq, ← h]; rfl, by rw [← h] at hne; exact hne,
                by rw [← h] at hw; exact hw, hq⟩
            · rcases ih rest nm h with ⟨l1, l2, heq, hne, hw, hnq⟩
              rcases hstruct with ⟨heq0, _, _, _⟩
              refine ⟨rosDotL ++ name ++ l1, l2, ?_, hne, hw, hnq⟩
              rw [heq0, heq]
              simp [List.append_assoc]

theorem depsFind_depsSet (k : String) (v : List String) (k2 : String) :
    ∀ deps, depsFind (depsSet deps k v) k2 =
      if k2 = k then some v else depsFind deps k2 := by
  intro deps
  induction deps with
  | nil =>
      by_cases h : k2 = k
      · simp [depsSet, depsFind, h]
      · have h2 : ¬ k = k2 := fun hc => h hc.symm
        simp [depsSet, depsFind, h, h2]
  | cons e t ih =>
      obtain ⟨k3, v3⟩ := e
      by_cases h3 : k3 = k
      · subst h3
        by_cases h : k2 = k3
        · simp [depsSet, depsFind, h]
        · have h2 : ¬ k3 = k2 := fun hc => h hc.symm
          simp [depsSet, depsFind, h, h2]
      · by_cases h : k3 = k2
        · have hk2 : ¬ k2 = k := fun hc => h3 (h.trans hc)
          simp [depsSet, depsFind, h3, h, hk2]
        · simp [depsSet, depsFind, h3, h, ih]

theorem depsFind_append_one_none (f : String) (l : List String) (f2 : String) :
    ∀ deps, depsFind deps f2 = none →
      depsFind (deps ++ [(f, l)]) f2 = if f2 = f then some l else none := by
  intro deps
  induction deps with
  | nil =>
      intro _
      by_cases h : f = f2
      · subst h
        simp [depsFind]
      · have h2 : ¬ f2 = f := fun hc => h hc.symm
        simp [depsFind, h, h2]
  | cons e t ih =>
      obtain ⟨k3, v3⟩ := e
      intro hnone
      by_cases h : k3 = f2
      · rw [depsFind, if_pos h] at hnone
        cases hnone
      · rw [depsFind, if_neg h] at hnone
        rw [List.cons_append, depsFind, if_neg h]
        exact ih hnone

theorem depsFind_append_one_some (f : String) (l : List String) (f2 : String)
    (x : List String) :
    ∀ deps, depsFind deps f2 = some x →
      depsFind (deps ++ [(f, l)]) f2 = some x := by
  intro deps
  induction deps with
  | nil => intro h; cases h
  | cons e t ih =>
      obtain ⟨k3, v3⟩ := e
      intro hsome
      by_cases h : k3 = f2
      · rw [depsFind, if_pos h] at hsome
        rw [List.cons_append, depsFind, if_pos h]
        exact hsome
      · rw [depsFind, if_neg h] at hsome
        rw [List.cons_append, depsFind, if_neg h]
        exact ih hsome

/-- One `dependencies.track` call adds at most the edge `(f, d0)`. -/
theorem dependencies.track_mem (deps : List (String × List String))
    (f d0 f2 d : String) (h : memDep (dependencies.track deps f d0) f2 d) :
    memDep deps f2 d ∨ (f2 = f ∧ d = d0) := by
  rcases hf : depsFind deps f with _ | l
  · simp only [dependencies.track, hf] at h
    unfold memDep at h ⊢
    rcases hf2 : depsFind deps f2 with _ | l2
    · rw [depsFind_append_one_none f [d0] f2 deps hf2] at h
      by_cases he : f2 = f
      · rw [if_pos he] at h
        simp only at h
        simp at h
        exact Or.inr ⟨he, h⟩
      · rw [if_neg he] at h
        exact absurd h id
    · rw [depsFind_append_one_some f [d0] f2 l2 deps hf2] at h
      exact Or.inl h
  · simp only [dependencies.track, hf] at h
    by_cases hd : d0 ∈ l
    · rw [if_pos hd] at h
      exact Or.inl h
    · rw [if_neg hd] at h
      unfold memDep at h ⊢
      rw [depsFind_depsSet] at h
      by_cases he : f2 = f
      · rw [if_pos he] at h
        simp only at h
        rw [he, hf]
        rcases List.mem_append.mp h with h1 | h1
        · exact Or.inl h1
        · simp at h1
          exact Or.inr ⟨rfl, h1⟩
      · rw [if_neg he] at h
        exact Or.inl h

theorem foldTrack_mem (f : String) :
    ∀ (names : List (List Char)) (deps : List (String × List String))
      (f2 d : String),
      memDep (names.foldl (fun a nm => dependencies.track a f (String.mk nm)) deps)
        f2 d →
      memDep deps f2 d ∨ (f2 = f ∧ ∃ nm ∈ names, String.mk nm = d) := by
  intro names
  induction names with
  | nil => intro deps f2 d h; exact Or.inl h
  | cons nm t ih =>
      intro deps f2 d h
      simp only [List.foldl_cons] at h
      rcases ih (dependencies.track deps f (String.mk nm)) f2 d h with h1 | h1
      · rcases dependencies.track_mem deps f (String.mk nm) f2 d h1 with h2 | h2
        · exact Or.inl h2
        · exact Or.inr ⟨h2.1, nm, List.mem_cons_self nm t, h2.2.symm⟩
      · exact Or.inr ⟨h1.1, h1.2.imp fun x ⟨hx, he⟩ => ⟨List.mem_cons_of_mem nm hx, he⟩⟩

/-- C3. Dependency soundness: every edge `(f2, d)` recorded by the
dependency-extraction stage (beyond those already in the graph) comes from a
matched qualified reference `ROS3D.<name>` whose rest-of-line holds no `=`
character — so the matched reference is never the left-hand target of an
assignment in its statement, and a symbol being assigned is never recorded
as a dependency of the unit assigning it. -/
theorem c3_dependency_soundness (f f2 : String) (st : TState) (cs : List Char)
    (d : String)
    (h : memDep ((transpile.internalDependencies f st cs).1.deps) f2 d) :
    memDep st.deps f2 d ∨
      (f2 = f ∧ ∃ l1 nm l2, cs = l1 ++ rosDotL ++ nm ++ l2 ∧ String.mk nm = d ∧
        nm ≠ [] ∧ (∀ c ∈ nm, isWordChar c = true) ∧ '=' ∉ lineOf l2) := by
  unfold transpile.internalDependencies at h
  simp only at h
  rcases foldTrack_mem f (idepsScan cs).2 st.deps f2 d h with h1 | h1
  · exact Or.inl h1
  · rcases h1 with ⟨he, nm, hmem, hd⟩
    rcases idepsGo_sound (cs.length + 1) cs nm hmem with ⟨l1, l2, heq, hne, hw, hnq⟩
    exact Or.inr ⟨he, l1, nm, l2, heq, hd, hne, hw, hnq⟩

theorem c3_dependency_soundness_witness :
    memDep
      ((transpile.internalDependencies "src/A.js" TState.empty
        ("return ROS3D.findClosestPoint(axisRay, mpRay);".toList)).1.deps)
      "src/A.js" "findClosestPoint" ∧
    (memDep TState.empty.deps "src/A.js" "findClosestPoint" ∨
      ("src/A.js" = "src/A.js" ∧ ∃ l1 nm l2,
        "return ROS3D.findClosestPoint(axisRay, mpRay);".toList =
          l1 ++ rosDotL ++ nm ++ l2 ∧
        String.mk nm = "findClosestPoint" ∧ nm ≠ [] ∧
        (∀ c ∈ nm, isWordChar c = true) ∧ '=' ∉ lineOf l2)) :=
  ⟨by decide,
    c3_dependency_soundness "src/A.js" "src/A.js" TState.empty
      ("return ROS3D.findClosestPoint(axisRay, mpRay);".toList)
      "findClosestPoint" (by decide)⟩

/-- C6. Scenario A: the pipeline output on the `Arrow2` unit is the
class form — a header `class Arrow2 extends Base {` (with the emitted
`export` modifier in front), the constructor wrapped inside it, the method
statement absorbed as `dispose()`, and the template-link statement
absorbed (no `__proto__`, no `ROS3D.` qualifier remains); the Symbol Table
records `Base` as `Arrow2`'s parent. -/
theorem c6_scenario_a :
    (transpileToEs6 "src/Arrow2.js" TState.empty scenarioAInput.toList).2 =
      scenarioAOutput.toList ∧
    occursIn ("class Arrow2 extends Base \x7b".toList)
      (transpileToEs6 "src/Arrow2.js" TState.empty scenarioAInput.toList).2 = true ∧
    occursIn ("constructor(options)".toList)
      (transpileToEs6 "src/Arrow2.js" TState.empty scenarioAInput.toList).2 = true ∧
    occursIn ("dispose()".toList)
      (transpileToEs6 "src/Arrow2.js" TState.empty scenarioAInput.toList).2 = true ∧
    occursIn ("__proto__".toList)
      (transpileToEs6 "src/Arrow2.js" TState.empty scenarioAInput.toList).2 = false ∧
    occursIn ("ROS3D.".toList)
      (transpileToEs6 "src/Arrow2.js" TState.empty scenarioAInput.toList).2 = false ∧
    idxFind ((transpileToEs6 "src/Arrow2.js" TState.empty scenarioAInput.toList).1.inh)
      "Arrow2" = some (some "Base") := by
  decide

/-- C5, counterexample. Scenario B as claimed is false on the code: the
pipeline output is *not* an unwrapped bare function named `util` — the
statement is left exactly as the input, still carrying the `ROS3D.util =`
namespace assignment (the exported-properties rewrite that would strip the
qualifier is not part of the applied stage chain). -/
theorem c5_counterexample :
    (transpileToEs6 "src/util.js" TState.empty scenarioBInput.toList).2 =
      scenarioBInput.toList ∧
    occursIn ("ROS3D.util = function".toList)
      (transpileToEs6 "src/util.js" TState.empty scenarioBInput.toList).2 = true := by
  decide

/-- C5, amended. On the Scenario B unit the pipeline output is the
input text unchanged: constructor tagging does not fire (no `constructor`
marker appears), `isClass` stays false for `util`, no class wrapper is
emitted — but the factory keeps its `ROS3D.util = function` namespace
form; a class-mismatch diagnostic is emitted because the unit's logical
name equals `util` while the Symbol Table does not mark it as a class. -/
theorem c5_amended :
    (transpileToEs6 "src/util.js" TState.empty scenarioBInput.toList).2 =
      scenarioBInput.toList ∧
    inheritance.isClass
      ((transpileToEs6 "src/util.js" TState.empty scenarioBInput.toList).1.inh)
      "util" = false ∧
    occursIn ("constructor".toList)
      (transpileToEs6 "src/util.js" TState.empty scenarioBInput.toList).2 = false ∧
    occursIn ("export class".toList)
      (transpileToEs6 "src/util.js" TState.empty scenarioBInput.toList).2 = false ∧
    (transpileToEs6 "src/util.js" TState.empty scenarioBInput.toList).1.diags =
      [Diag.classMismatch "src/util.js" "util" false true] := by
  decide

/-- C4, counterexample. The pipeline is not idempotent for every input
text: on the unit text `ROS3D.ROS3D.X` the first application yields
`ROS3D.X` (the dependency stage rewrites the overlapping qualified
reference `ROS3D.ROS3D`), and the second application rewrites that output
again, to `X`. -/
theorem c4_counterexample :
    (transpileToEs6 "src/Foo.js"
        (transpileToEs6 "src/Foo.js" TState.empty ("ROS3D.ROS3D.X".toList)).1
        (transpileToEs6 "src/Foo.js" TState.empty ("ROS3D.ROS3D.X".toList)).2).2 ≠
      (transpileToEs6 "src/Foo.js" TState.empty ("ROS3D.ROS3D.X".toList)).2 := by
  decide

/-! ### C10 — missing parent deletes every superclass call -/
theorem pcGo_eq_deleteAllGo (child : String) (inh : List (String × Option String))
    (h : inheritance.getParent inh child = none ∨
      inheritance.getParent inh child = some none) :
    ∀ (fuel : Nat) (cs : List Char), pcGo child inh fuel cs = deleteAllGo fuel cs := by
  intro fuel
  induction fuel with
  | zero => intro cs; rfl
  | succ n ih =>
      intro cs
      cases cs with
      | nil => rfl
      | cons c cs =>
          simp only [pcGo, deleteAllGo]
          rcases htry : tryCall (c :: cs) with _ | m
          · simp only [ih]
          · have hne : ¬ (inheritance.getParent inh child =
                some (some (String.mk m.ref))) := by
              rcases h with h | h <;> rw [h] <;> intro hc <;> cases hc
            simp only [if_neg hne, ih]

/-- C10. In a unit whose logical class name has no recorded parent in
the Symbol Table (absent entry or the null sentinel), the superclass-call
stage behaves exactly like the reference scanner that deletes every
line-initial `<ref>.call(this|that, ...)` statement, whatever `<ref>` is,
emitting one `removing extra parent constructor call` notice per deleted
statement. -/
theorem c10_missing_parent_removes_every_call (filepath : String) (st : TState)
    (cs : List Char)
    (h : inheritance.getParent st.inh (getFileClass filepath) = none ∨
      inheritance.getParent st.inh (getFileClass filepath) = some none) :
    transpile.parentConstructors filepath st cs =
      ({ st with diags := st.diags ++ (deleteAllGo (cs.length + 1) cs).2 },
        (deleteAllGo (cs.length + 1) cs).1) := by
  unfold transpile.parentConstructors
  rw [pcGo_eq_deleteAllGo (getFileClass filepath) st.inh h (cs.length + 1) cs]

theorem c10_missing_parent_removes_every_call_witness :
    transpile.parentConstructors "src/Child.js" TState.empty
        ("\nTHREE.Object3D.call(this);\nfoo();".toList) =
      ({ TState.empty with
          diags := TState.empty.diags ++
            (deleteAllGo ("\nTHREE.Object3D.call(this);\nfoo();".toList.length + 1)
              ("\nTHREE.Object3D.call(this);\nfoo();".toList)).2 },
        (deleteAllGo ("\nTHREE.Object3D.call(this);\nfoo();".toList.length + 1)
          ("\nTHREE.Object3D.call(this);\nfoo();".toList)).1) :=
  c10_missing_parent_removes_every_call "src/Child.js" TState.empty
    ("\nTHREE.Object3D.call(this);\nfoo();".toList) (Or.inl (by decide))

/-! ### Helper lemmas for symbolic matcher evaluation -/
theorem dropPref_append (p r : List Char) : dropPref p (p ++ r) = some r := by
  unfold dropPref
  rw [if_pos ((hasPref_iff_append p (p ++ r)).mpr ⟨r, rfl⟩)]
  rw [List.drop_left]

theorem takeWhile_all_append (p : Char → Bool) :
    ∀ (xs ys : List Char), (∀ c ∈ xs, p c = true) →
      (xs ++ ys).takeWhile p = xs ++ ys.takeWhile p := by
  intro xs
  induction xs with
  | nil => intro ys _; rfl
  | cons x xs ih =>
      intro ys h
      have hx : p x = true := h x (List.mem_cons_self x xs)
      simp only [List.cons_append, List.takeWhile_cons, hx]
      rw [ih ys (fun c hc => h c (List.mem_cons_of_mem x hc))]
      simp

theorem dropWhile_all_append (p : Char → Bool) :
    ∀ (xs ys : List Char), (∀ c ∈ xs, p c = true) →
      (xs ++ ys).dropWhile p = ys.dropWhile p := by
  intro xs
  induction xs with
  | nil => intro ys _; rfl
  | cons x xs ih =>
      intro ys h
      have hx : p x = true := h x (List.mem_cons_self x xs)
      simp only [List.cons_append, List.dropWhile_cons, hx]
      exact ih ys (fun c hc => h c (List.mem_cons_of_mem x hc))

/-! ### C8 — constructor tagging: Symbol-Table flag decides, filepath only
feeds the diagnostic -/
theorem consGo_nil (f : String) (inh : List (String × Option String)) (fuel : Nat) :
    consGo f inh fuel [] = ([], []) := by
  cases fuel <;> rfl

theorem consGo_text_indep (f1 f2 : String) (inh : List (String × Option String)) :
    ∀ (fuel : Nat) (cs : List Char),
      (consGo f1 inh fuel cs).1 = (consGo f2 inh fuel cs).1 := by
  intro fuel
  induction fuel with
  | zero => intro cs; rfl
  | succ n ih =>
      intro cs
      cases cs with
      | nil => rfl
      | cons c cs =>
          simp only [consGo]
          rcases htry : tryCons (c :: cs) with _ | m
          · simp only [ih]
          · simp only [ih]

theorem consGo_match (f : String) (inh : List (String × Option String))
    (fuel : Nat) (cs : List Char) (m : ConsM) (hne : cs ≠ [])
    (h : tryCons cs = some m) :
    consGo f inh (fuel + 1) cs =
      ((if inheritance.isClass inh (String.mk m.name) then "constructor".toList
        else m.matched) ++ (consGo f inh fuel m.rest).1,
       (if inheritance.isClass inh (String.mk m.name) =
            isFileClass f (String.mk m.name) then []
        else [Diag.classMismatch f (String.mk m.name)
          (inheritance.isClass inh (String.mk m.name))
          (isFileClass f (String.mk m.name))]) ++ (consGo f inh fuel m.rest).2) := by
  cases cs with
  | nil => cases hne rfl
  | cons c cs => simp only [consGo, h]

theorem tryCons_canonical (name : List Char) (h1 : name ≠ [])
    (h2 : ∀ c ∈ name, isWordChar c = true) :
    tryCons ("ROS3D.".toList ++ name ++ " = function".toList) =
      some ⟨name, "ROS3D.".toList ++ name ++ " = function".toList, []⟩ := by
  have e0 : "ROS3D.".toList ++ name ++ " = function".toList =
      "ROS3D".toList ++ ('.' :: (name ++ " = function".toList)) := by
    simp
  rw [e0]
  unfold tryCons
  rw [dropPref_append]
  simp only
  have e1 : (name ++ " = function".toList).takeWhile isWordChar = name := by
    rw [takeWhile_all_append isWordChar name (" = function".toList) h2]
    have h3 : (" = function".toList).takeWhile isWordChar = [] := by decide
    rw [h3, List.append_nil]
  have e2 : (name ++ " = function".toList).dropWhile isWordChar =
      " = function".toList := by
    rw [dropWhile_all_append isWordChar name (" = function".toList) h2]
    decide
  rw [e1, e2]
  have e3 : name.isEmpty = false := by
    cases name with
    | nil => cases h1 rfl
    | cons a t => rfl
  rw [e3]
  simp only [Bool.false_eq_true, if_false]
  have e4 : isNLChar '.' = false := rfl
  rw [e4]
  simp only [Bool.false_eq_true, if_false]
  have e5 : (" = function".toList).takeWhile isSpaceChar = [' '] := rfl
  have e6 : (" = function".toList).dropWhile isSpaceChar =
      '=' :: " function".toList := rfl
  rw [e5, e6]
  simp only [if_pos rfl]
  have e7 : (" function".toList).takeWhile isSpaceChar = [' '] := rfl
  have e8 : dropPref ("function".toList)
      ((" function".toList).dropWhile isSpaceChar) = some [] := rfl
  rw [e7, e8]
  simp

/-- C8. In the constructor-tagging stage the rewrite result depends
only on the Symbol-Table `isClass` flag, not on the unit's filepath: (a)
the stage's output text is identical for any two filepaths; (b) on a
matched statement `ROS3D.<Name> = function` the head is rewritten to the
bare `constructor` marker exactly when the Symbol Table marks `Name` as a
class and is left unchanged otherwise, while a disagreement between that
flag and the filename-derived signal produces only the `class mismatch`
diagnostic (unit identity, Name, both booleans) and the stage never
aborts (it is a total function). -/
theorem c8_class_mismatch_diag_only :
    (∀ (f1 f2 : String) (st : TState) (cs : List Char),
      (transpile.constructors f1 st cs).2 = (transpile.constructors f2 st cs).2) ∧
    (∀ (f : String) (st : TState) (name : List Char), name ≠ [] →
      (∀ c ∈ name, isWordChar c = true) →
      transpile.constructors f st
          ("ROS3D.".toList ++ name ++ " = function".toList) =
        ({ st with diags := st.diags ++
            (if inheritance.isClass st.inh (String.mk name) =
                isFileClass f (String.mk name) then []
             else [Diag.classMismatch f (String.mk name)
               (inheritance.isClass st.inh (String.mk name))
               (isFileClass f (String.mk name))]) },
          if inheritance.isClass st.inh (String.mk name) then "constructor".toList
          else "ROS3D.".toList ++ name ++ " = function".toList)) := by
  constructor
  · intro f1 f2 st cs
    unfold transpile.constructors
    exact consGo_text_indep f1 f2 st.inh (cs.length + 1) cs
  · intro f st name h1 h2
    unfold transpile.constructors
    have hm := tryCons_canonical name h1 h2
    have hne : ("ROS3D.".toList ++ name ++ " = function".toList) ≠ [] := by
      simp
    rw [consGo_match f st.inh
      ("ROS3D.".toList ++ name ++ " = function".toList).length
      ("ROS3D.".toList ++ name ++ " = function".toList)
      ⟨name, "ROS3D.".toList ++ name ++ " = function".toList, []⟩ hne hm]
    rw [consGo_nil]
    simp

theorem c8_class_mismatch_diag_only_witness :
    ((transpile.constructors "src/A.js" TState.empty
        ("ROS3D.Arrow2 = function".toList)).2 =
      (transpile.constructors "src/B.js" TState.empty
        ("ROS3D.Arrow2 = function".toList)).2) ∧
    transpile.constructors "src/util.js" TState.empty
        ("ROS3D.".toList ++ "util".toList ++ " = function".toList) =
      ({ TState.empty with diags := TState.empty.diags ++
          (if inheritance.isClass TState.empty.inh "util" =
              isFileClass "src/util.js" "util" then []
           else [Diag.classMismatch "src/util.js" "util"
             (inheritance.isClass TState.empty.inh "util")
             (isFileClass "src/util.js" "util")]) },
        if inheritance.isClass TState.empty.inh "util" then "constructor".toList
        else "ROS3D.".toList ++ "util".toList ++ " = function".toList) :=
  ⟨c8_class_mismatch_diag_only.1 "src/A.js" "src/B.js" TState.empty
      ("ROS3D.Arrow2 = function".toList),
    c8_class_mismatch_diag_only.2 "src/util.js" TState.empty ("util".toList)
      (by decide) (by decide)⟩

/-! ### C7 — the Class Assembler opens at most one class block -/
theorem classesOpenCount_matched :
    ∀ (fuel : Nat) (st : CState) (cs : List Char),
      st.matchedFirstComment = true → classesOpenCount fuel st cs = 0 := by
  intro fuel
  induction fuel with
  | zero => intro st cs _; rfl
  | succ n ih =>
      intro st cs h
      rcases htry : tryComCtor cs with _ | ⟨m, rest⟩
      · simp only [classesOpenCount, htry]
        by_cases hnl : allNL cs = true
        · simp [hnl]
        · simp only [hnl, Bool.false_eq_true, if_false]
          by_cases hemp : (cs.takeWhile (fun c => !isNLChar c)).isEmpty
          · simp only [hemp, if_true]
            cases cs with
            | nil => cases hnl rfl
            | cons c t => exact ih st t h
          · simp only [hemp, Bool.false_eq_true, if_false]
            exact ih st (cs.dropWhile (fun c => !isNLChar c)) h
      · simp only [classesOpenCount, htry, h, Bool.not_true, Bool.false_eq_true,
          if_false]
        exact ih st rest h

theorem classesOpenCount_le_one :
    ∀ (fuel : Nat) (st : CState) (cs : List Char),
      classesOpenCount fuel st cs ≤ 1 := by
  intro fuel
  induction fuel with
  | zero => intro st cs; exact Nat.zero_le 1
  | succ n ih =>
      intro st cs
      rcases htry : tryComCtor cs with _ | ⟨m, rest⟩
      · simp only [classesOpenCount, htry]
        by_cases hnl : allNL cs = true
        · simp [hnl]
        · simp only [hnl, Bool.false_eq_true, if_false]
          by_cases hemp : (cs.takeWhile (fun c => !isNLChar c)).isEmpty
          · simp only [hemp, if_true]
            cases cs with
            | nil => exact Nat.zero_le 1
            | cons c t => exact ih st t
          · simp only [hemp, Bool.false_eq_true, if_false]
            exact ih st (cs.dropWhile (fun c => !isNLChar c))
      · simp only [classesOpenCount, htry]
        by_cases hm : st.matchedFirstComment = true
        · simp only [hm, Bool.not_true, Bool.false_eq_true, if_false]
          exact ih st rest
        · have hm2 : st.matchedFirstComment = false := by
            cases hmf : st.matchedFirstComment
            · rfl
            · cases hm hmf
          simp only [hm2, Bool.not_false, if_true]
          rw [classesOpenCount_matched n ⟨true, true⟩ rest rfl]

/-- C7. The Class Assembler opens at most one class block per file:
the open count of any scan is at most one; once the first
documentation-comment/constructor pair has been matched the open branch
can never fire again (count zero); and a second such pair encountered
while the block is open is emitted as ordinary indented body text
(`indent ++ match`), not as a new class header. -/
theorem c7_at_most_one_class_block :
    (∀ (fuel : Nat) (st : CState) (cs : List Char),
      classesOpenCount fuel st cs ≤ 1) ∧
    (∀ (fuel : Nat) (st : CState) (cs : List Char),
      st.matchedFirstComment = true → classesOpenCount fuel st cs = 0) ∧
    (∀ (cn : String) (par : Option (Option String)) (fuel : Nat)
      (cs m rest : List Char), tryComCtor cs = some (m, rest) →
      classesGo cn par (fuel + 1) ⟨true, true⟩ cs =
        indentL ++ m ++ classesGo cn par fuel ⟨true, true⟩ rest) := by
  refine ⟨classesOpenCount_le_one, classesOpenCount_matched, ?_⟩
  intro cn par fuel cs m rest htry
  simp [classesGo, htry]

theorem c7_at_most_one_class_block_witness :
    classesOpenCount 40 ⟨false, false⟩ ("/** x */ constructor() \x7b".toList) ≤ 1 ∧
    classesOpenCount 40 ⟨true, true⟩ ("/** x */ constructor() \x7b".toList) = 0 ∧
    (tryComCtor ("/** x */ constructor() \x7b".toList) =
      some ("/** x */ constructor() \x7b".toList, []) ∧
    classesGo "Arrow2" (some (some "Base")) 40 ⟨true, true⟩
        ("/** x */ constructor() \x7b".toList) =
      indentL ++ "/** x */ constructor() \x7b".toList ++
        classesGo "Arrow2" (some (some "Base")) 39 ⟨true, true⟩ []) :=
  ⟨c7_at_most_one_class_block.1 40 ⟨false, false⟩ _,
    c7_at_most_one_class_block.2.1 40 ⟨true, true⟩ _ rfl,
    by decide,
    c7_at_most_one_class_block.2.2 "Arrow2" (some (some "Base")) 39
      ("/** x */ constructor() \x7b".toList)
      ("/** x */ constructor() \x7b".toList) [] (by decide)⟩

theorem argChar_spec (c : Char) (h : argChar c = true) :
    c ≠ ',' ∧ c ≠ ')' ∧ isSpaceChar c = false := by
  unfold argChar at h
  simp only [Bool.not_eq_true', Bool.or_eq_false_iff, decide_eq_false_iff_not] at h
  exact ⟨h.1.1, h.1.2, h.2⟩

theorem splitCP_delim (c : Char) (cs : List Char) (h : c = ',' ∨ c = ')') :
    splitCP (c :: cs) = [] :: splitCP cs := by
  simp [splitCP, h]

theorem splitCP_plain_append :
    ∀ (a cs p : List Char) (ps : List (List Char)),
      (∀ c ∈ a, c ≠ ',' ∧ c ≠ ')') → splitCP cs = p :: ps →
      splitCP (a ++ cs) = (a ++ p) :: ps := by
  intro a
  induction a with
  | nil => intro cs p ps _ h; simpa using h
  | cons x t ih =>
      intro cs p ps hall h
      have hx := hall x (List.mem_cons_self x t)
      have hnd : ¬ (x = ',' ∨ x = ')') := by
        rintro (h1 | h1)
        · exact hx.1 h1
        · exact hx.2 h1
      simp only [List.cons_append, splitCP, if_neg hnd, List.append_eq]
      rw [ih cs p ps (fun c hc => hall c (List.mem_cons_of_mem x hc)) h]

theorem splitCP_close_semi : splitCP (");".toList) = [[], [';']] := by decide

theorem splitCP_argsTail :
    ∀ (args : List (List Char)), args ≠ [] →
      (∀ a ∈ args, a ≠ [] ∧ ∀ c ∈ a, argChar c = true) →
      splitCP (", ".toList ++ joinSep (", ".toList) args ++ ");".toList) =
        [] :: (args.map (fun a => ' ' :: a) ++ [[';']]) := by
  intro args
  induction args with
  | nil => intro h _; cases h rfl
  | cons a as ih =>
      intro _ hall
      have hargs : ∀ c ∈ (' ' :: a), c ≠ ',' ∧ c ≠ ')' := by
        intro c hc
        rcases List.mem_cons.mp hc with h | h
        · subst h; exact ⟨by decide, by decide⟩
        · have := argChar_spec c ((hall a (List.mem_cons_self a as)).2 c h)
          exact ⟨this.1, this.2.1⟩
      cases as with
      | nil =>
          have e : ", ".toList ++ joinSep (", ".toList) [a] ++ ");".toList =
              ',' :: ((' ' :: a) ++ ");".toList) := by
            simp [joinSep]
          rw [e, splitCP_delim ',' _ (Or.inl rfl)]
          rw [splitCP_plain_append (' ' :: a) (");".toList) [] [[';']] hargs
            splitCP_close_semi]
          simp
      | cons b rest =>
          have e : ", ".toList ++ joinSep (", ".toList) (a :: b :: rest) ++
              ");".toList =
              ',' :: ((' ' :: a) ++ (", ".toList ++ joinSep (", ".toList) (b :: rest)
                ++ ");".toList)) := by
            simp [joinSep]
          rw [e, splitCP_delim ',' _ (Or.inl rfl)]
          have hih := ih (by simp) (fun x hx => hall x (List.mem_cons_of_mem a hx))
          rw [splitCP_plain_append (' ' :: a) _ []
            ((b :: rest).map (fun x => ' ' :: x) ++ [[';']]) hargs hih]
          simp

theorem joinSep_comma_map :
    ∀ (args : List (List Char)), args ≠ [] →
      joinSep [','] (args.map (fun a => ' ' :: a)) =
        ' ' :: joinSep (", ".toList) args := by
  intro args
  induction args with
  | nil => intro h; cases h rfl
  | cons a as ih =>
      cases as with
      | nil => intro _; rfl
      | cons b rest =>
          intro _
          have hih := ih (by simp)
          have e2 : (b :: rest).map (fun x => ' ' :: x) =
              (' ' :: b) :: (rest.map (fun x => ' ' :: x)) := rfl
          show (' ' :: a) ++ [','] ++
              joinSep [','] ((b :: rest).map (fun x => ' ' :: x)) = _
          rw [hih]
          show (' ' :: a) ++ [','] ++ (' ' :: joinSep (", ".toList) (b :: rest)) =
            ' ' :: ((a ++ ", ".toList) ++ joinSep (", ".toList) (b :: rest))
          have e3 : (", ".toList) = [',', ' '] := rfl
          rw [e3]
          simp

theorem joinSep_head_mem :
    ∀ (a : List Char) (as : List (List Char)), a ≠ [] →
      ∃ c t, joinSep (", ".toList) (a :: as) = c :: t ∧ c ∈ a := by
  intro a as ha
  cases a with
  | nil => cases ha rfl
  | cons c0 t0 =>
      cases as with
      | nil => exact ⟨c0, t0, rfl, List.mem_cons_self c0 t0⟩
      | cons b rest =>
          refine ⟨c0, t0 ++ ", ".toList ++ joinSep (", ".toList) (b :: rest), ?_,
            List.mem_cons_self c0 t0⟩
          show ((c0 :: t0) ++ ", ".toList) ++ joinSep (", ".toList) (b :: rest) = _
          simp

theorem joinSep_rev_head :
    ∀ (args : List (List Char)), args ≠ [] →
      (∀ a ∈ args, a ≠ [] ∧ ∀ c ∈ a, argChar c = true) →
      ∃ c t, (joinSep (", ".toList) args).reverse = c :: t ∧ argChar c = true := by
  intro args
  induction args with
  | nil => intro h _; cases h rfl
  | cons a as ih =>
      intro _ hall
      cases as with
      | nil =>
          have ha := hall a (List.mem_cons_self a [])
          rcases hrev : a.reverse with _ | ⟨c, t⟩
          · have : a = [] := by
              have := congrArg List.reverse hrev
              simpa using this
            cases ha.1 this
          · refine ⟨c, t, by simpa [joinSep] using hrev, ?_⟩
            have hc : c ∈ a.reverse := by rw [hrev]; exact List.mem_cons_self c t
            exact ha.2 c (List.mem_reverse.mp hc)
      | cons b rest =>
          rcases ih (by simp) (fun x hx => hall x (List.mem_cons_of_mem a hx)) with
            ⟨c, t, hrev, hc⟩
          refine ⟨c, t ++ ((a ++ ", ".toList).reverse), ?_, hc⟩
          show ((a ++ ", ".toList) ++ joinSep (", ".toList) (b :: rest)).reverse = _
          rw [List.reverse_append, hrev]
          rfl

/-- The split/slice/join/trim chain recovers exactly the joined simple
arguments from the captured `$2` text `", a1, ..., an);"`. -/
theorem cookArgs_joinSep (args : List (List Char))
    (hall : ∀ a ∈ args, a ≠ [] ∧ ∀ c ∈ a, argChar c = true) :
    cookArgs (argsTailText args) = joinSep (", ".toList) args := by
  cases args with
  | nil => decide
  | cons a as =>
      show cookArgs (", ".toList ++ joinSep (", ".toList) (a :: as) ++ ");".toList) = _
      unfold cookArgs
      rw [splitCP_argsTail (a :: as) (by simp) hall]
      show jsTrim (joinSep [','] (List.dropLast
        (((a :: as).map (fun x => ' ' :: x)) ++ [[';']]))) = _
      rw [List.dropLast_concat]
      rw [joinSep_comma_map (a :: as) (by simp)]
      unfold jsTrim
      have e1 : trimL (' ' :: joinSep (", ".toList) (a :: as)) =
          trimL (joinSep (", ".toList) (a :: as)) := rfl
      rw [e1]
      rcases joinSep_head_mem a as (hall a (List.mem_cons_self a as)).1 with
        ⟨c, t, hj, hcm⟩
      have hcarg := (hall a (List.mem_cons_self a as)).2 c hcm
      have e2 : trimL (joinSep (", ".toList) (a :: as)) =
          joinSep (", ".toList) (a :: as) := by
        rw [hj]
        unfold trimL
        rw [List.dropWhile_cons]
        rw [(argChar_spec c hcarg).2.2]
        simp
      rw [e2]
      rcases joinSep_rev_head (a :: as) (by simp) hall with ⟨c2, t2, hrev, hc2⟩
      rw [hrev]
      rw [List.dropWhile_cons]
      rw [(argChar_spec c2 hc2).2.2]
      simp only [Bool.false_eq_true, if_false]
      rw [← hrev]
      exact List.reverse_reverse _

theorem wordOrDot_not_space (c : Char) (h : wordOrDot c = true) :
    isSpaceChar c = false := by
  rcases hs : isSpaceChar c
  · rfl
  · exfalso
    unfold isSpaceChar at hs
    simp only [Bool.or_eq_true, decide_eq_true_eq] at hs
    rcases hs with ((rfl | rfl) | rfl) | rfl <;> exact absurd h (by decide)

theorem takeWhile_all (p : Char → Bool) :
    ∀ (x : List Char), (∀ c ∈ x, p c = true) → x.takeWhile p = x := by
  intro x
  induction x with
  | nil => intro _; rfl
  | cons c t ih =>
      intro h
      rw [List.takeWhile_cons, h c (List.mem_cons_self c t),
        ih (fun d hd => h d (List.mem_cons_of_mem c hd))]
      simp

theorem tryCall_canonical (ws ref recv a2 : List Char)
    (hws : ∀ c ∈ ws, isSpaceChar c = true)
    (href1 : ref ≠ []) (href2 : ∀ c ∈ ref, wordOrDot c = true)
    (hrecv : recv = "this".toList ∨ recv = "that".toList)
    (ha2 : ∀ c ∈ a2, isNLChar c = false) :
    tryCall ('\n' :: (ws ++ (ref ++ (".call(".toList ++ (recv ++ a2))))) =
      some ⟨ws, ref, a2,
        '\n' :: (ws ++ ((ref ++ ".call".toList) ++ ('(' :: (recv ++ a2)))), []⟩ := by
  rcases href0 : ref with _ | ⟨rc, rt⟩
  · cases href1 href0
  subst href0
  have hrc : wordOrDot rc = true := href2 rc (List.mem_cons_self rc rt)
  have e_take_sp : (ws ++ ((rc :: rt) ++ (".call(".toList ++ (recv ++ a2)))).takeWhile
      isSpaceChar = ws := by
    rw [takeWhile_all_append isSpaceChar ws _ hws]
    rw [show ((rc :: rt) ++ (".call(".toList ++ (recv ++ a2))) =
      rc :: (rt ++ (".call(".toList ++ (recv ++ a2))) from rfl]
    rw [List.takeWhile_cons, wordOrDot_not_space rc hrc]
    simp
  have e_drop_sp : (ws ++ ((rc :: rt) ++ (".call(".toList ++ (recv ++ a2)))).dropWhile
      isSpaceChar = (rc :: rt) ++ (".call(".toList ++ (recv ++ a2)) := by
    rw [dropWhile_all_append isSpaceChar ws _ hws]
    rw [show ((rc :: rt) ++ (".call(".toList ++ (recv ++ a2))) =
      rc :: (rt ++ (".call(".toList ++ (recv ++ a2))) from rfl]
    rw [List.dropWhile_cons, wordOrDot_not_space rc hrc]
    simp
  have hdotcall : ∀ c ∈ (".call".toList), wordOrDot c = true := by decide
  have e_take_w : ((rc :: rt) ++ (".call(".toList ++ (recv ++ a2))).takeWhile
      wordOrDot = (rc :: rt) ++ ".call".toList := by
    rw [takeWhile_all_append wordOrDot (rc :: rt) _ href2]
    rw [show (".call(".toList ++ (recv ++ a2)) =
      ".call".toList ++ ('(' :: (recv ++ a2)) from rfl]
    rw [takeWhile_all_append wordOrDot (".call".toList) _ hdotcall]
    rw [List.takeWhile_cons]
    simp [show wordOrDot '(' = false from rfl]
  have e_drop_w : ((rc :: rt) ++ (".call(".toList ++ (recv ++ a2))).dropWhile
      wordOrDot = '(' :: (recv ++ a2) := by
    rw [dropWhile_all_append wordOrDot (rc :: rt) _ href2]
    rw [show (".call(".toList ++ (recv ++ a2)) =
      ".call".toList ++ ('(' :: (recv ++ a2)) from rfl]
    rw [dropWhile_all_append wordOrDot (".call".toList) _ hdotcall]
    rw [List.dropWhile_cons]
    simp [show wordOrDot '(' = false from rfl]
  have e_len : ((rc :: rt) ++ ".call".toList).length = rt.length + 1 + 5 := by
    simp [List.length_append]
  have e_lt : ¬ (((rc :: rt) ++ ".call".toList).length < 6) := by
    rw [e_len]; omega
  have e_drop5 : ((rc :: rt) ++ ".call".toList).drop
      (((rc :: rt) ++ ".call".toList).length - 5) = ".call".toList := by
    rw [e_len]
    have : rt.length + 1 + 5 - 5 = (rc :: rt).length := by simp
    rw [this, List.drop_left]
  have e_take5 : ((rc :: rt) ++ ".call".toList).take
      (((rc :: rt) ++ ".call".toList).length - 5) = rc :: rt := by
    rw [e_len]
    have : rt.length + 1 + 5 - 5 = (rc :: rt).length := by simp
    rw [this, List.take_left]
  show tryCall ('\n' :: _) = _
  rw [tryCall]
  rw [show isNLChar '\n' = true from rfl]
  simp only [if_true]
  rw [e_take_sp, e_drop_sp, e_take_w, e_drop_w]
  rw [if_neg e_lt]
  rw [e_drop5]
  have hne2 : ¬ (".call".toList ≠ ".call".toList) := fun hh => hh rfl
  rw [if_neg hne2]
  rw [e_take5]
  rcases hrecv with rfl | rfl
  · have e_dp : dropPref ("(this".toList) ('(' :: ("this".toList ++ a2)) =
        some a2 := by
      rw [show ('(' :: ("this".toList ++ a2)) = "(this".toList ++ a2 from rfl]
      exact dropPref_append _ _
    rw [e_dp]
    have e_line2 : lineOf a2 = a2 := by
      unfold lineOf
      apply takeWhile_all
      intro c hc
      rw [ha2 c hc]; rfl
    simp only [e_line2, List.drop_length]
    simp [List.append_assoc]
  · have e_dp1 : dropPref ("(this".toList) ('(' :: ("that".toList ++ a2)) = none := rfl
    rw [e_dp1]
    have e_dp2 : dropPref ("(that".toList) ('(' :: ("that".toList ++ a2)) =
        some a2 := by
      rw [show ('(' :: ("that".toList ++ a2)) = "(that".toList ++ a2 from rfl]
      exact dropPref_append _ _
    rw [e_dp2]
    have e_line2 : lineOf a2 = a2 := by
      unfold lineOf
      apply takeWhile_all
      intro c hc
      rw [ha2 c hc]; rfl
    simp only [e_line2, List.drop_length]
    simp [List.append_assoc]

theorem pcGo_nil (child : String) (inh : List (String × Option String)) (fuel : Nat) :
    pcGo child inh fuel [] = ([], []) := by
  cases fuel <;> rfl

theorem pcGo_match (child : String) (inh : List (String × Option String))
    (fuel : Nat) (cs mws mref margs mmatched mrest : List Char)
    (hne : cs ≠ [])
    (h : tryCall cs = some ⟨mws, mref, margs, mmatched, mrest⟩) :
    pcGo child inh (fuel + 1) cs =
      if inheritance.getParent inh child = some (some (String.mk mref)) then
        ('\n' :: (mws ++ "super(".toList ++ cookArgs margs ++ ");".toList) ++
          (pcGo child inh fuel mrest).1, (pcGo child inh fuel mrest).2)
      else ((pcGo child inh fuel mrest).1,
        Diag.removedParentCall (String.mk mmatched) ::
          (pcGo child inh fuel mrest).2) := by
  cases cs with
  | nil => cases hne rfl
  | cons c t => simp only [pcGo, h]

theorem isNLChar_imp_space (c : Char) (h : isNLChar c = true) :
    isSpaceChar c = true := by
  unfold isNLChar at h
  unfold isSpaceChar
  rcases Bool.or_eq_true_iff.mp h with h1 | h1 <;> simp [h1]

theorem joinSep_mem (sep : List Char) :
    ∀ (args : List (List Char)) (c : Char), c ∈ joinSep sep args →
      c ∈ sep ∨ ∃ a ∈ args, c ∈ a := by
  intro args
  induction args with
  | nil => intro c hc; cases hc
  | cons a as ih =>
      intro c hc
      cases as with
      | nil => exact Or.inr ⟨a, List.mem_cons_self a [], hc⟩
      | cons b rest =>
          rw [show joinSep sep (a :: b :: rest) =
            (a ++ sep) ++ joinSep sep (b :: rest) from rfl] at hc
          rcases List.mem_append.mp hc with h1 | h1
          · rcases List.mem_append.mp h1 with h2 | h2
            · exact Or.inr ⟨a, List.mem_cons_self a (b :: rest), h2⟩
            · exact Or.inl h2
          · rcases ih c h1 with h2 | ⟨x, hx, hcx⟩
            · exact Or.inl h2
            · exact Or.inr ⟨x, List.mem_cons_of_mem a hx, hcx⟩

theorem argsTailText_no_nl (args : List (List Char))
    (hargs : ∀ a ∈ args, a ≠ [] ∧ ∀ c ∈ a, argChar c = true) :
    ∀ c ∈ argsTailText args, isNLChar c = false := by
  have hsep : ∀ d ∈ (", ".toList), isNLChar d = false := by decide
  have hclose : ∀ d ∈ (");".toList), isNLChar d = false := by decide
  intro c hc
  unfold argsTailText at hc
  rcases List.mem_append.mp hc with h1 | h1
  · cases args with
    | nil => cases h1
    | cons a as =>
        rcases List.mem_append.mp h1 with h2 | h2
        · exact hsep c h2
        · rcases joinSep_mem (", ".toList) (a :: as) c h2 with h3 | ⟨x, hx, hcx⟩
          · exact hsep c h3
          · have hspec := argChar_spec c ((hargs x hx).2 c hcx)
            rcases hnl : isNLChar c
            · rfl
            · exact absurd (isNLChar_imp_space c hnl) (by rw [hspec.2.2]; decide)
  · exact hclose c h1

/-- C2. For a line-initial qualified call
`<ref>.call(this|that, a1, ..., an);` in a unit: when `<ref>` equals the
unit's recorded parent (looked up by the unit's logical class name) the
superclass-call stage rewrites it to `super(a1, ..., an);` — the receiver
argument `this`/`that` is dropped and the remaining simple arguments are
kept in order; when `<ref>` is not the recorded parent the whole statement
is removed from the output and a `removing extra parent constructor call`
diagnostic carrying the matched text is emitted. -/
theorem c2_superclass_call_rewrite (f : String) (st : TState)
    (ws ref recv : List Char) (args : List (List Char))
    (hws : ∀ c ∈ ws, isSpaceChar c = true)
    (href1 : ref ≠ []) (href2 : ∀ c ∈ ref, wordOrDot c = true)
    (hrecv : recv = "this".toList ∨ recv = "that".toList)
    (hargs : ∀ a ∈ args, a ≠ [] ∧ ∀ c ∈ a, argChar c = true) :
    (inheritance.getParent st.inh (getFileClass f) = some (some (String.mk ref)) →
      transpile.parentConstructors f st
          ('\n' :: (ws ++ (ref ++ (".call(".toList ++ (recv ++ argsTailText args))))) =
        (st, '\n' :: (ws ++ "super(".toList ++ joinSep (", ".toList) args ++
          ");".toList))) ∧
    (inheritance.getParent st.inh (getFileClass f) ≠ some (some (String.mk ref)) →
      transpile.parentConstructors f st
          ('\n' :: (ws ++ (ref ++ (".call(".toList ++ (recv ++ argsTailText args))))) =
        ({ st with diags := st.diags ++ [Diag.removedParentCall (String.mk
            ('\n' :: (ws ++ ((ref ++ ".call".toList) ++
              ('(' :: (recv ++ argsTailText args))))))] },
          [])) := by
  have hcall := tryCall_canonical ws ref recv (argsTailText args) hws href1 href2
    hrecv (argsTailText_no_nl args hargs)
  constructor
  · intro hpar
    unfold transpile.parentConstructors
    rw [pcGo_match (getFileClass f) st.inh _ _ _ _ _ _ _ (by simp) hcall]
    rw [if_pos hpar]
    rw [pcGo_nil]
    rw [cookArgs_joinSep args hargs]
    simp
  · intro hpar
    unfold transpile.parentConstructors
    rw [pcGo_match (getFileClass f) st.inh _ _ _ _ _ _ _ (by simp) hcall]
    rw [if_neg hpar]
    rw [pcGo_nil]

theorem c2_superclass_call_rewrite_witness :
    transpile.parentConstructors "src/Child.js"
        ⟨[], [("Child", some "Base")], []⟩
        ('\n' :: ("  ".toList ++ ("Base".toList ++ (".call(".toList ++
          ("this".toList ++ argsTailText [['a'], ['b']]))))) =
      (⟨[], [("Child", some "Base")], []⟩,
        '\n' :: ("  ".toList ++ "super(".toList ++
          joinSep (", ".toList) [['a'], ['b']] ++ ");".toList)) :=
  (c2_superclass_call_rewrite "src/Child.js" ⟨[], [("Child", some "Base")], []⟩
    ("  ".toList) ("Base".toList) ("this".toList) [['a'], ['b']]
    (by decide) (by decide) (by decide) (Or.inl rfl) (by decide)).1 (by decide)

/-! ### C4 — idempotence on pattern-free text -/
theorem replaceOnce_id (pat repl : List Char) :
    ∀ (cs : List Char), occursIn pat cs = false →
      replaceOnce pat repl cs = cs := by
  intro cs
  induction cs with
  | nil => intro _; rfl
  | cons c t ih =>
      intro h
      unfold replaceOnce
      rw [occursIn_head pat c t h]
      simp only [Bool.false_eq_true, if_false]
      rw [ih (occursIn_tail pat c t h)]

theorem idepsGo_id :
    ∀ (cs : List Char) (fuel : Nat),
      anyPos (fun x => (tryDep x).isSome) cs = false →
      idepsGo fuel cs = (cs, []) := by
  intro cs
  induction cs with
  | nil => intro fuel _; cases fuel <;> rfl
  | cons c t ih =>
      intro fuel h
      cases fuel with
      | zero => rfl
      | succ n =>
          have hh := anyPos_head _ c t h
          have ht : tryDep (c :: t) = none := by
            rcases htry : tryDep (c :: t) with _ | v
            · rfl
            · rw [htry] at hh; cases hh
          simp only [idepsGo, ht]
          rw [ih n (anyPos_tail _ c t h)]

theorem protoGo_id :
    ∀ (cs : List Char) (fuel : Nat),
      anyPos (fun x => (tryProto x).isSome) cs = false →
      protoGo fuel cs = (cs, []) := by
  intro cs
  induction cs with
  | nil => intro fuel _; cases fuel <;> rfl
  | cons c t ih =>
      intro fuel h
      cases fuel with
      | zero => rfl
      | succ n =>
          have hh := anyPos_head _ c t h
          have ht : tryProto (c :: t) = none := by
            rcases htry : tryProto (c :: t) with _ | v
            · rfl
            · rw [htry] at hh; cases hh
          simp only [protoGo, ht]
          rw [ih n (anyPos_tail _ c t h)]

theorem assignGo_id :
    ∀ (cs : List Char) (fuel : Nat),
      anyPos (fun x => (tryAssign x).isSome) cs = false →
      assignGo fuel cs = (cs, []) := by
  intro cs
  induction cs with
  | nil => intro fuel _; cases fuel <;> rfl
  | cons c t ih =>
      intro fuel h
      cases fuel with
      | zero => rfl
      | succ n =>
          have hh := anyPos_head _ c t h
          have ht : tryAssign (c :: t) = none := by
            rcases htry : tryAssign (c :: t) with _ | v
            · rfl
            · rw [htry] at hh; cases hh
          simp only [assignGo, ht]
          rw [ih n (anyPos_tail _ c t h)]

theorem methodGo_id :
    ∀ (cs : List Char) (fuel : Nat),
      anyPos (fun x => (tryMethod x).isSome) cs = false →
      methodGo fuel cs = (cs, []) := by
  intro cs
  induction cs with
  | nil => intro fuel _; cases fuel <;> rfl
  | cons c t ih =>
      intro fuel h
      cases fuel with
      | zero => rfl
      | succ n =>
          have hh := anyPos_head _ c t h
          have ht : tryMethod (c :: t) = none := by
            rcases htry : tryMethod (c :: t) with _ | v
            · rfl
            · rw [htry] at hh; cases hh
          simp only [methodGo, ht]
          rw [ih n (anyPos_tail _ c t h)]

theorem consGo_id (f : String) (inh : List (String × Option String)) :
    ∀ (cs : List Char) (fuel : Nat),
      anyPos (fun x => (tryCons x).isSome) cs = false →
      consGo f inh fuel cs = (cs, []) := by
  intro cs
  induction cs with
  | nil => intro fuel _; cases fuel <;> rfl
  | cons c t ih =>
      intro fuel h
      cases fuel with
      | zero => rfl
      | succ n =>
          have hh := anyPos_head _ c t h
          have ht : tryCons (c :: t) = none := by
            rcases htry : tryCons (c :: t) with _ | v
            · rfl
            · rw [htry] at hh; cases hh
          simp only [consGo, ht]
          rw [ih n (anyPos_tail _ c t h)]

theorem pcGo_id (child : String) (inh : List (String × Option String)) :
    ∀ (cs : List Char) (fuel : Nat),
      anyPos (fun x => (tryCall x).isSome) cs = false →
      pcGo child inh fuel cs = (cs, []) := by
  intro cs
  induction cs with
  | nil => intro fuel _; cases fuel <;> rfl
  | cons c t ih =>
      intro fuel h
      cases fuel with
      | zero => rfl
      | succ n =>
          have hh := anyPos_head _ c t h
          have ht : tryCall (c :: t) = none := by
            rcases htry : tryCall (c :: t) with _ | v
            · rfl
            · rw [htry] at hh; cases hh
          simp only [pcGo, ht]
          rw [ih n (anyPos_tail _ c t h)]

theorem classesGo_id (cn : String) (par : Option (Option String)) :
    ∀ (fuel : Nat) (cs : List Char),
      anyPos (fun x => (tryComCtor x).isSome) cs = false →
      classesGo cn par fuel ⟨false, false⟩ cs = cs := by
  intro fuel
  induction fuel with
  | zero => intro cs _; rfl
  | succ n ih =>
      intro cs h
      cases cs with
      | nil => rfl
      | cons c t =>
          have hh := anyPos_head _ c t h
          have ht : tryComCtor (c :: t) = none := by
            rcases htry : tryComCtor (c :: t) with _ | v
            · rfl
            · rw [htry] at hh; cases hh
          simp only [classesGo, ht]
          by_cases hnl : allNL (c :: t) = true
          · simp [hnl]
          · simp only [hnl, Bool.false_eq_true, if_false]
            by_cases hemp : ((c :: t).takeWhile (fun x => !isNLChar x)).isEmpty
            · simp only [hemp, if_true]
              rw [ih t (anyPos_tail _ c t h)]
              simp
            · simp only [hemp, Bool.false_eq_true, if_false]
              have hsuf : anyPos (fun x => (tryComCtor x).isSome)
                  ((c :: t).dropWhile (fun x => !isNLChar x)) = false := by
                apply anyPos_suffix _ ((c :: t).takeWhile (fun x => !isNLChar x))
                rw [List.takeWhile_append_dropWhile]
                exact h
              rw [ih _ hsuf]
              show ((c :: t).takeWhile (fun x => !isNLChar x)) ++
                ((c :: t).dropWhile (fun x => !isNLChar x)) = c :: t
              exact List.takeWhile_append_dropWhile _ _

theorem internalDependencies_stage_id (f : String) (st : TState) (t : List Char)
    (h : anyPos (fun x => (tryDep x).isSome) t = false) :
    transpile.internalDependencies f st t = (st, t) := by
  unfold transpile.internalDependencies idepsScan
  rw [idepsGo_id t (t.length + 1) h]
  rfl

theorem proto_stage_id (st : TState) (t : List Char)
    (h : anyPos (fun x => (tryProto x).isSome) t = false) :
    transpile.buildInheritanceIndexViaProto st t = (st, t) := by
  unfold transpile.buildInheritanceIndexViaProto
  rw [protoGo_id t (t.length + 1) h]
  rfl

theorem assign_stage_id (st : TState) (t : List Char)
    (h : anyPos (fun x => (tryAssign x).isSome) t = false) :
    transpile.buildInheritanceIndexViaObjectAssign st t = (st, t) := by
  unfold transpile.buildInheritanceIndexViaObjectAssign
  rw [assignGo_id t (t.length + 1) h]
  rfl

theorem methods_stage_id (st : TState) (t : List Char)
    (h : anyPos (fun x => (tryMethod x).isSome) t = false) :
    transpile.methods st t = (st, t) := by
  unfold transpile.methods
  rw [methodGo_id t (t.length + 1) h]
  rfl

theorem constructors_stage_id (f : String) (st : TState) (t : List Char)
    (h : anyPos (fun x => (tryCons x).isSome) t = false) :
    transpile.constructors f st t = (st, t) := by
  unfold transpile.constructors
  rw [consGo_id f st.inh t (t.length + 1) h]
  simp

theorem parentConstructors_stage_id (f : String) (st : TState) (t : List Char)
    (h : anyPos (fun x => (tryCall x).isSome) t = false) :
    transpile.parentConstructors f st t = (st, t) := by
  unfold transpile.parentConstructors
  rw [pcGo_id (getFileClass f) st.inh t (t.length + 1) h]
  simp

theorem classes_stage_id (f : String) (st : TState) (t : List Char)
    (h : anyPos (fun x => (tryComCtor x).isSome) t = false) :
    transpile.classes f st t = t := by
  unfold transpile.classes
  exact classesGo_id (getFileClass f)
    (inheritance.getParent st.inh (getFileClass f)) (t.length + 1) t h

/-- C4, amended. The pipeline is a no-op on any text that contains no
occurrence of the patterns stages 4.1–4.7 and the Class Assembler match:
whenever the first application's output is such a text (the common case
for the legacy inputs, though not guaranteed — see the counterexample), a
second application returns it unchanged. -/
theorem c4_amended_no_match_idempotent (f : String) (st : TState) (t : List Char)
    (h0 : occursIn rootPatL t = false)
    (h1 : anyPos (fun cs => (tryDep cs).isSome) t = false)
    (h2 : anyPos (fun cs => (tryProto cs).isSome) t = false)
    (h3 : anyPos (fun cs => (tryAssign cs).isSome) t = false)
    (h4 : anyPos (fun cs => (tryMethod cs).isSome) t = false)
    (h5 : anyPos (fun cs => (tryCons cs).isSome) t = false)
    (h6 : anyPos (fun cs => (tryCall cs).isSome) t = false)
    (h7 : anyPos (fun cs => (tryComCtor cs).isSome) t = false) :
    (transpileToEs6 f st t).2 = t := by
  have e0 : (if f = "src/Ros3D.js" then replaceOnce rootPatL rootReplL t else t) =
      t := by
    by_cases hf : f = "src/Ros3D.js"
    · rw [if_pos hf]; exact replaceOnce_id rootPatL rootReplL t h0
    · rw [if_neg hf]
  unfold transpileToEs6
  simp only [e0, internalDependencies_stage_id f st t h1, proto_stage_id st t h2,
    assign_stage_id st t h3, methods_stage_id st t h4,
    constructors_stage_id f st t h5, parentConstructors_stage_id f st t h6,
    classes_stage_id f st t h7]

theorem c4_amended_no_match_idempotent_witness :
    (transpileToEs6 "src/A.js" TState.empty ("const x = 1;\n".toList)).2 =
      "const x = 1;\n".toList :=
  c4_amended_no_match_idempotent "src/A.js" TState.empty ("const x = 1;\n".toList)
    (by decide) (by decide) (by decide) (by decide) (by decide) (by decide)
    (by decide) (by decide)
